import Mathlib

/-!
Shallow embedding of `collect_data.py` (Bitfinex margin long/short position
collector): the HTTP fetch client's retry behaviour, the paginated position
fetcher with its sort/dedup post-processing, the period collector's candle
projection and range reconciliation, and the downsampler. HTTP itself is
abstracted as oracles (`att`, `gen`); everything downstream of the decoded
JSON follows the source line by line.
-/

/-- A data point `[timestamp_ms, value]` as used for position and price series. -/
abbrev Pt : Type := Int × Int

/-- JSON values as produced by `json.loads` in `fetch_json`. -/
inductive Json : Type where
  | arr (items : List Json)
  | num (n : Int)
  | str (s : String)
  | obj (fields : List (String × Json))
  | null
  | bool (b : Bool)

/-- Model of `fetch_json`: attempt `i` of the HTTP round-trip succeeds iff
`att i = some payload`; the first successful payload is returned, and after
exhausting all retries the function returns the empty list `[]`. The second
argument is the index of the next attempt, the third the remaining retries. -/
def fetch_json (att : Nat → Option Json) : Nat → Nat → Json
  | _, 0 => Json.arr []
  | i, r + 1 =>
    match att i with
    | some j => j
    | none => fetch_json att (i + 1) r

/-- Model of `fetch_json(url)` with the default `retries=3`, from attempt 0. -/
def fetchJson3 (att : Nat → Option Json) : Json :=
  fetch_json att 0 3

/-- The `for page in range(max_pages)` loop of `fetch_position_paged`:
`gen page cursor` is the decoded response of the request issued at that page
index and cursor (`none` models a non-list JSON response, `some l` a list).
Entries are abstracted over their type `α` with `tsOf` playing `x[0]`.
Returns the accumulated `all_data` together with the trace of responses
received, one per request issued, in request order. -/
def pagedLoop {α : Type} (tsOf : α → Int) (gen : Nat → Int → Option (List α))
    (start_ms : Int) : Nat → Nat → Int → List α → List α × List (Option (List α))
  | 0, _, _, acc => (acc, [])
  | fuel + 1, page, cursor, acc =>
    match gen page cursor with
    | none => (acc, [none])
    | some [] => (acc, [some []])
    | some (d :: rest) =>
      let acc' := acc ++ (d :: rest)
      let cursor' := tsOf (List.getLast (d :: rest) (List.cons_ne_nil d rest)) - 1
      if cursor' ≤ start_ms ∨ (d :: rest).length < 10000 then
        (acc', [some (d :: rest)])
      else
        let r := pagedLoop tsOf gen start_ms fuel (page + 1) cursor' acc'
        (r.1, some (d :: rest) :: r.2)

/-- Model of `all_data.sort(key=lambda x: x[0])`: stable sort ascending by
timestamp. -/
def sortByTs {α : Type} (tsOf : α → Int) (l : List α) : List α :=
  l.mergeSort fun a b => decide (tsOf a ≤ tsOf b)

/-- The dedup loop of `fetch_position_paged`: keep the first occurrence of
each timestamp, tracking the `seen` set of timestamps. -/
def dedupByTs {α : Type} (tsOf : α → Int) : List α → List Int → List α
  | [], _ => []
  | x :: rest, seen =>
    if tsOf x ∈ seen then dedupByTs tsOf rest seen
    else x :: dedupByTs tsOf rest (tsOf x :: seen)

/-- Post-processing of `fetch_position_paged`: sort ascending by timestamp,
then dedup keeping the first occurrence. -/
def postProcess {α : Type} (tsOf : α → Int) (l : List α) : List α :=
  dedupByTs tsOf (sortByTs tsOf l) []

/-- Model of `fetch_position_paged(symbol, side, start_ms, max_pages)` with the
initial cursor `now = int(time.time()*1000)` as a parameter and the HTTP layer
abstracted by `gen`. -/
def fetch_position_paged {α : Type} (tsOf : α → Int) (gen : Nat → Int → Option (List α))
    (start_ms now : Int) (max_pages : Nat) : List α :=
  postProcess tsOf (pagedLoop tsOf gen start_ms max_pages 0 now []).1

/-- The trace of responses `fetch_position_paged` receives, one per request. -/
def pagedTrace {α : Type} (tsOf : α → Int) (gen : Nat → Int → Option (List α))
    (start_ms now : Int) (max_pages : Nat) : List (Option (List α)) :=
  (pagedLoop tsOf gen start_ms max_pages 0 now []).2

/-- A response after which the pagination loop stops issuing requests:
non-list (`none`), empty, fewer than 10000 entries, or a new cursor
`oldest − 1 ≤ start_ms`. -/
def stopCond {α : Type} (tsOf : α → Int) (start_ms : Int) : Option (List α) → Bool
  | none => true
  | some [] => true
  | some (d :: rest) =>
    decide (tsOf (List.getLast (d :: rest) (List.cons_ne_nil d rest)) - 1 ≤ start_ms)
      || decide ((d :: rest).length < 10000)

/-- Model of the candle projection
`[[c[0], c[2]] for c in candles if isinstance(c, list) and len(c) >= 3]`
on well-typed numeric candle rows. -/
def closeProj (candles : List (List Int)) : List Pt :=
  candles.filterMap fun c =>
    match c with
    | t :: _ :: cl :: _ => some (t, cl)
    | _ => none

/-- The `stats_start` computation in `collect_period`: earliest long
timestamp, replaced by the earliest short timestamp when that is smaller. -/
def stats_start (longs shorts : List Pt) : Option Int :=
  let s : Option Int :=
    match longs with
    | [] => none
    | p :: _ => some p.1
  match shorts, s with
  | [], _ => s
  | q :: _, none => some q.1
  | q :: _, some t => if q.1 < t then some q.1 else some t

/-- The price series `collect_period` produces for one asset from well-typed
candle rows: close-projection, then the SYNC trim to the stats range with
fallback to the untrimmed projection when trimming removes every point. -/
def collect_price (longs shorts : List Pt) (candles : List (List Int)) : List Pt :=
  let price := closeProj candles
  match stats_start longs shorts with
  | none => price
  | some s =>
    if price.isEmpty then price
    else
      let trimmed := price.filter fun p => decide (s ≤ p.1)
      if trimmed.isEmpty then closeProj candles else trimmed

/-- Spec formula: `statsStart` is the minimum of the earliest timestamps of
the non-empty `longs` and `shorts` series, undefined when both are empty. -/
def statsStartSpec (longs shorts : List Pt) : Option Int :=
  match longs.head?, shorts.head? with
  | none, none => none
  | some p, none => some p.1
  | none, some q => some q.1
  | some p, some q => some (min p.1 q.1)

/-- Spec formula for the reconciled price series: the close-projection trimmed
to `timestamp ≥ statsStart`, falling back to the untrimmed projection when the
trim removes every point, and untrimmed when `statsStart` is undefined. -/
def specPrice (longs shorts : List Pt) (candles : List (List Int)) : List Pt :=
  let price := closeProj candles
  match statsStartSpec longs shorts with
  | none => price
  | some s =>
    let trimmed := price.filter fun p => decide (s ≤ p.1)
    if trimmed.isEmpty then price else trimmed

/-- Model of `downsample(data, max_points)`. `none` models the
`ZeroDivisionError` raised by `step = (len(data)-1)/(max_points-1)` when
`max_points = 1` and the data is longer than `max_points`; the selected
indices are the exact values `⌊i·(len−1)/(mp−1)⌋` of the stride sampling
(the source computes them in floating point). -/
def downsample {α : Type} : List α → Nat → Option (List α)
  | [], _ => some []
  | d :: tl, mp =>
    if (d :: tl).length ≤ mp then some (d :: tl)
    else if mp = 1 then none
    else some
      (((List.range (mp - 1)).map fun i =>
          (d :: tl).getD (i * ((d :: tl).length - 1) / (mp - 1)) d) ++
        [List.getLast (d :: tl) (List.cons_ne_nil d tl)])

/-- Python iteration `for c in candles` over a decoded JSON payload: arrays
yield their items, objects yield their keys, strings yield their characters;
numbers, booleans and `None` are not iterable and raise `TypeError`,
modelled as `error`. -/
def iterJson : Json → Except Unit (List Json)
  | Json.arr l => Except.ok l
  | Json.obj fs => Except.ok (fs.map fun f => Json.str f.1)
  | Json.str s => Except.ok (s.data.map fun c => Json.str (String.mk [c]))
  | _ => Except.error ()

/-- One candle row in the projection loop over a raw JSON payload: kept iff it
is a list of length ≥ 3, projected to `[c[0], c[2]]`. -/
def candProj : Json → Option (Json × Json)
  | Json.arr (a :: _ :: c :: _) => some (a, c)
  | _ => none

/-- The candle handling of `collect_period` on the raw decoded payload:
reverse it when it is a list, then run the projection loop `for c in candles`,
which raises (`error`) when the payload is not iterable. -/
def pricePath (candles : Json) : Except Unit (List (Json × Json)) :=
  let c2 : Json :=
    match candles with
    | Json.arr l => Json.arr l.reverse
    | j => j
  Except.map (fun items => items.filterMap candProj) (iterJson c2)

/-- `pageOfJson` models the `isinstance(data, list)` check decoding one
response: a JSON array yields its raw items, anything else is non-list. -/
def pageOfJson : Json → Option (List Json)
  | Json.arr l => some l
  | _ => none

theorem stats_start_eq_spec (longs shorts : List Pt) :
    stats_start longs shorts = statsStartSpec longs shorts := by
  cases longs with
  | nil => cases shorts <;> rfl
  | cons p ps =>
    cases shorts with
    | nil => rfl
    | cons q qs =>
      simp only [stats_start, statsStartSpec, List.head?]
      by_cases h : q.1 < p.1 <;> simp only [h, if_true, if_false, min_def] <;>
        congr 1 <;> omega

/-- C1: the price series `collect_period` produces equals the spec formula:
the close-projection of the candles trimmed to `timestamp ≥ statsStart`
(with `statsStart` the minimum earliest timestamp of the non-empty longs and
shorts), the full untrimmed projection when the trim removes every point,
and the untrimmed projection when `statsStart` is undefined. -/
theorem collect_price_eq_specPrice (longs shorts : List Pt) (candles : List (List Int)) :
    collect_price longs shorts candles = specPrice longs shorts candles := by
  unfold collect_price specPrice
  rw [stats_start_eq_spec]
  cases hs : statsStartSpec longs shorts with
  | none => rfl
  | some s =>
    simp only
    cases hc : closeProj candles with
    | nil => simp
    | cons a l => simp

theorem dedupByTs_sublist {α : Type} (tsOf : α → Int) :
    ∀ (l : List α) (seen : List Int), (dedupByTs tsOf l seen).Sublist l
  | [], _ => List.Sublist.refl []
  | x :: rest, seen => by
    rw [dedupByTs]
    split
    · exact (dedupByTs_sublist tsOf rest seen).cons x
    · exact (dedupByTs_sublist tsOf rest (tsOf x :: seen)).cons₂ x

theorem dedupByTs_fresh {α : Type} (tsOf : α → Int) :
    ∀ (l : List α) (seen : List Int) (y : α),
      y ∈ dedupByTs tsOf l seen → tsOf y ∉ seen
  | [], _, y => by simp [dedupByTs]
  | x :: rest, seen, y => by
    rw [dedupByTs]
    split
    · exact dedupByTs_fresh tsOf rest seen y
    · intro hy hsy
      rcases List.mem_cons.mp hy with h | h
      · subst h; exact absurd hsy (by assumption)
      · exact dedupByTs_fresh tsOf rest (tsOf x :: seen) y h
          (List.mem_cons_of_mem _ hsy)

theorem dedupByTs_nodup {α : Type} (tsOf : α → Int) :
    ∀ (l : List α) (seen : List Int), ((dedupByTs tsOf l seen).map tsOf).Nodup
  | [], _ => by simp [dedupByTs]
  | x :: rest, seen => by
    rw [dedupByTs]
    split
    · exact dedupByTs_nodup tsOf rest seen
    · rw [List.map_cons, List.nodup_cons]
      refine ⟨?_, dedupByTs_nodup tsOf rest (tsOf x :: seen)⟩
      intro hmem
      rcases List.mem_map.mp hmem with ⟨y, hy, hty⟩
      exact dedupByTs_fresh tsOf rest (tsOf x :: seen) y hy
        (hty ▸ List.mem_cons_self (tsOf x) seen)

theorem sortByTs_sorted {α : Type} (tsOf : α → Int) (l : List α) :
    (sortByTs tsOf l).Pairwise fun a b => tsOf a ≤ tsOf b := by
  have h := @List.sorted_mergeSort α (fun a b => decide (tsOf a ≤ tsOf b))
    (fun a b c hab hbc => by
      simp only [decide_eq_true_eq] at *
      omega)
    (fun a b => by
      by_cases hab : tsOf a ≤ tsOf b
      · simp [hab]
      · simp only [Bool.or_eq_true, decide_eq_true_eq]
        omega) l
  exact h.imp (fun hab => by simpa using hab)

theorem postProcess_strict {α : Type} (tsOf : α → Int) (l : List α) :
    (postProcess tsOf l).Pairwise fun a b => tsOf a < tsOf b := by
  have hle : (postProcess tsOf l).Pairwise fun a b => tsOf a ≤ tsOf b :=
    (sortByTs_sorted tsOf l).sublist (dedupByTs_sublist tsOf (sortByTs tsOf l) [])
  have hne : (postProcess tsOf l).Pairwise fun a b => tsOf a ≠ tsOf b :=
    List.pairwise_map.mp (dedupByTs_nodup tsOf (sortByTs tsOf l) [])
  exact (hle.and hne).imp fun h => lt_of_le_of_ne h.1 h.2

/-- C2: for every page generator, the output of `fetch_position_paged` is
strictly ascending by timestamp with no duplicate timestamps: after
concatenating the accumulated pages, sorting ascending and keeping the first
occurrence of each timestamp, every pair of output points (in particular every
adjacent pair) has strictly increasing timestamps. -/
theorem fetch_position_paged_strict_ascending {α : Type} (tsOf : α → Int)
    (gen : Nat → Int → Option (List α)) (start_ms now : Int) (max_pages : Nat) :
    (fetch_position_paged tsOf gen start_ms now max_pages).Pairwise
      fun a b => tsOf a < tsOf b :=
  postProcess_strict tsOf _

theorem pagedLoop_trace_length {α : Type} (tsOf : α → Int)
    (gen : Nat → Int → Option (List α)) (start_ms : Int) :
    ∀ (fuel page : Nat) (cursor : Int) (acc : List α),
      (pagedLoop tsOf gen start_ms fuel page cursor acc).2.length ≤ fuel
  | 0, _, _, _ => by simp [pagedLoop]
  | fuel + 1, page, cursor, acc => by
    rw [pagedLoop]
    cases hg : gen page cursor with
    | none => simp
    | some data =>
      cases data with
      | nil => simp
      | cons d rest =>
        simp only
        split
        · simp
        · simpa using pagedLoop_trace_length tsOf gen start_ms fuel (page + 1) _ _

theorem pagedLoop_trace_nostop {α : Type} (tsOf : α → Int)
    (gen : Nat → Int → Option (List α)) (start_ms : Int) :
    ∀ (fuel page : Nat) (cursor : Int) (acc : List α),
      (pagedLoop tsOf gen start_ms fuel page cursor acc).2.dropLast.all
        (fun r => !stopCond tsOf start_ms r) = true
  | 0, _, _, _ => by simp [pagedLoop]
  | fuel + 1, page, cursor, acc => by
    rw [pagedLoop]
    cases hg : gen page cursor with
    | none => simp
    | some data =>
      cases data with
      | nil => simp
      | cons d rest =>
        simp only
        split
        · simp
        · rename_i hstop
          have ih := pagedLoop_trace_nostop tsOf gen start_ms fuel (page + 1)
            (tsOf (List.getLast (d :: rest) (List.cons_ne_nil d rest)) - 1)
            (acc ++ (d :: rest))
          simp only
          cases htr : (pagedLoop tsOf gen start_ms fuel (page + 1)
              (tsOf (List.getLast (d :: rest) (List.cons_ne_nil d rest)) - 1)
              (acc ++ (d :: rest))).2 with
          | nil => simp
          | cons t ts =>
            rw [List.dropLast_cons₂, List.all_cons]
            have h1 : stopCond tsOf start_ms (some (d :: rest)) = false := by
              simp only [stopCond, Bool.or_eq_false_iff, decide_eq_false_iff_not]
              push_neg at hstop
              exact ⟨by omega, by omega⟩
            rw [htr] at ih
            simp [h1, ih]

/-- C3: pagination termination — for every page generator, the loop issues at
most `max_pages` requests, and every response except possibly the final one
fails every stop condition (non-list, empty, fewer than 10000 entries, or new
cursor `oldest − 1 ≤ start_ms`): no request is ever issued after a page that
satisfies a stop condition, regardless of how large `max_pages` is. -/
theorem pagedTrace_termination {α : Type} (tsOf : α → Int)
    (gen : Nat → Int → Option (List α)) (start_ms now : Int) (max_pages : Nat) :
    (pagedTrace tsOf gen start_ms now max_pages).length ≤ max_pages ∧
      (pagedTrace tsOf gen start_ms now max_pages).dropLast.all
        (fun r => !stopCond tsOf start_ms r) = true :=
  ⟨pagedLoop_trace_length tsOf gen start_ms max_pages 0 now [],
    pagedLoop_trace_nostop tsOf gen start_ms max_pages 0 now []⟩

/-- C4: what the pipeline does with a non-array JSON response. The position
fetcher treats it as end of pagination and contributes no points, and the
candle path yields an empty price series for iterable non-arrays (objects,
strings). But for non-iterable non-arrays — a number, a boolean, `null` —
the projection loop `for c in candles` raises `TypeError` out of the
collector, contradicting the claim that no non-array response raises. -/
theorem nonlist_response_behaviour :
    (∀ (start_ms now : Int) (max_pages : Nat),
        fetch_position_paged Prod.fst (fun _ _ => (none : Option (List Pt)))
          start_ms now max_pages = []) ∧
      (∀ (fields : List (String × Json)), pricePath (Json.obj fields) = Except.ok []) ∧
      pricePath (Json.num 42) = Except.error () ∧
      pricePath Json.null = Except.error () ∧
      pricePath (Json.bool true) = Except.error () := by
  refine ⟨?_, ?_, rfl, rfl, rfl⟩
  · intro s n mp
    cases mp <;>
      simp [fetch_position_paged, pagedLoop, postProcess, sortByTs,
        List.mergeSort_nil, dedupByTs]
  · intro fields
    simp only [pricePath, iterJson, Except.map]
    congr 1
    induction fields with
    | nil => rfl
    | cons f fs ih => simp [candProj, ih]

/-- C8: a fetch client whose 3 attempts all fail returns the empty list, and
the paginated fetcher built on such a client (each request decoding that
response via the `isinstance` check) returns an empty series. -/
theorem degraded_fetch_empty (att : Nat → Option Json) (tsOf : Json → Int)
    (start_ms now : Int) (max_pages : Nat) (h : ∀ i, att i = none) :
    fetchJson3 att = Json.arr [] ∧
      fetch_position_paged tsOf (fun _ _ => pageOfJson (fetchJson3 att))
        start_ms now max_pages = [] := by
  have hj : fetchJson3 att = Json.arr [] := by
    simp [fetchJson3, fetch_json, h]
  refine ⟨hj, ?_⟩
  rw [hj]
  cases max_pages <;>
    simp [fetch_position_paged, pagedLoop, pageOfJson, postProcess, sortByTs,
      List.mergeSort_nil, dedupByTs]

/-- Witness for C8 at the concrete always-failing client. -/
theorem degraded_fetch_empty_witness :
    fetchJson3 (fun _ => none) = Json.arr [] ∧
      fetch_position_paged (fun _ => (0 : Int))
        (fun _ _ => pageOfJson (fetchJson3 (fun _ => none))) 0 1000 1 = [] :=
  degraded_fetch_empty (fun _ => none) (fun _ => (0 : Int)) 0 1000 1 (fun _ => rfl)

theorem downsample_of_le {α : Type} (data : List α) (mp : Nat)
    (h : data.length ≤ mp) : downsample data mp = some data := by
  cases data with
  | nil => rfl
  | cons d tl => rw [downsample, if_pos h]

theorem downsample_formula {α : Type} (d : α) (tl : List α) (mp : Nat)
    (h2 : 2 ≤ mp) (hlt : mp < (d :: tl).length) :
    downsample (d :: tl) mp = some
      (((List.range (mp - 1)).map fun i =>
          (d :: tl).getD (i * ((d :: tl).length - 1) / (mp - 1)) d) ++
        [List.getLast (d :: tl) (List.cons_ne_nil d tl)]) := by
  rw [downsample, if_neg (by omega), if_neg (by omega)]

theorem stride_idx_lt {L mp i : Nat} (h2 : 2 ≤ mp) (hlt : mp < L)
    (hi : i < mp - 1) : i * (L - 1) / (mp - 1) < L - 1 := by
  rw [Nat.div_lt_iff_lt_mul (by omega)]
  have h1 : i * (L - 1) < (mp - 1) * (L - 1) :=
    Nat.mul_lt_mul_of_lt_of_le hi (Nat.le_refl _) (by omega)
  calc i * (L - 1) < (mp - 1) * (L - 1) := h1
    _ = (L - 1) * (mp - 1) := Nat.mul_comm _ _

theorem stride_idx_mono {a b i j : Nat} (hb : 0 < b) (hba : b ≤ a)
    (hij : i < j) : i * a / b < j * a / b := by
  have h2 : i * a + b ≤ j * a := by
    have hj : i + 1 ≤ j := hij
    calc i * a + b ≤ i * a + a := by omega
      _ = (i + 1) * a := by ring
      _ ≤ j * a := Nat.mul_le_mul_right a hj
  calc i * a / b < i * a / b + 1 := Nat.lt_succ_self _
    _ = (i * a + b) / b := (Nat.add_div_right _ hb).symm
    _ ≤ j * a / b := Nat.div_le_div_right h2

/-- C5 (amended): `downsample` is the identity when the series has at most
`maxPoints` elements; when it is longer and `maxPoints ≥ 2`, the result has
exactly `maxPoints` elements: the stride samples `series[⌊i·(L−1)/(m−1)⌋]`
for `i < m − 1` followed by the true last element. (As stated for every
`maxPoints` the claim fails at `maxPoints ≤ 1`.) -/
theorem downsample_length_spec (data : List Pt) (mp : Nat) :
    (data.length ≤ mp → downsample data mp = some data) ∧
      (2 ≤ mp → mp < data.length →
        ∃ r, downsample data mp = some r ∧ r.length = mp ∧
          r = ((List.range (mp - 1)).map fun i =>
              data.getD (i * (data.length - 1) / (mp - 1)) ((0 : Int), (0 : Int))) ++
            [data.getD (data.length - 1) ((0 : Int), (0 : Int))]) := by
  refine ⟨downsample_of_le data mp, ?_⟩
  intro h2 hlt
  cases data with
  | nil => simp at hlt
  | cons d tl =>
    refine ⟨_, downsample_formula d tl mp h2 hlt, ?_, ?_⟩
    · simp
      omega
    · congr 1
      · apply List.map_congr_left
        intro i hi
        have hiR := List.mem_range.mp hi
        have hidx : i * ((d :: tl).length - 1) / (mp - 1) < (d :: tl).length := by
          have := stride_idx_lt h2 hlt hiR
          omega
        rw [List.getD_eq_getElem _ _ hidx, List.getD_eq_getElem _ _ hidx]
      · rw [List.getLast_eq_getElem,
          List.getD_eq_getElem _ _ (by simp : (d :: tl).length - 1 < (d :: tl).length)]

/-- Counterexample to C5 as stated: at `maxPoints = 0` a 2-point series
downsamples to 1 element, not `maxPoints = 0` of them, and at
`maxPoints = 1` the function raises instead of returning. -/
theorem downsample_length_cex :
    Option.map List.length
        (downsample [((0 : Int), (0 : Int)), ((1 : Int), (1 : Int))] 0) = some 1 ∧
      downsample [((0 : Int), (0 : Int)), ((1 : Int), (1 : Int))] 1 = none := by
  constructor
  · rfl
  · rfl

/-- C6: for `L > maxPoints ≥ 2` the first and last elements of the
downsampled series equal the first and last elements of the input. -/
theorem downsample_endpoints (data : List Pt) (mp : Nat)
    (h2 : 2 ≤ mp) (hlt : mp < data.length) :
    ∃ r, downsample data mp = some r ∧ r.head? = data.head? ∧
      r.getLast? = data.getLast? := by
  cases data with
  | nil => simp at hlt
  | cons d tl =>
    refine ⟨_, downsample_formula d tl mp h2 hlt, ?_, ?_⟩
    · obtain ⟨k, hk⟩ : ∃ k, mp - 1 = k + 1 := ⟨mp - 2, by omega⟩
      rw [hk, List.range_succ_eq_map, List.map_cons]
      simp
    · rw [List.getLast?_concat]
      exact (List.getLast?_eq_getLast (d :: tl) (List.cons_ne_nil d tl)).symm

/-- Witness for C6 at a concrete 3-point series with `maxPoints = 2`. -/
theorem downsample_endpoints_witness :
    ∃ r, downsample [((0 : Int), (0 : Int)), ((1 : Int), (1 : Int)),
        ((2 : Int), (2 : Int))] 2 = some r ∧
      r.head? = ([((0 : Int), (0 : Int)), ((1 : Int), (1 : Int)),
        ((2 : Int), (2 : Int))] : List Pt).head? ∧
      r.getLast? = ([((0 : Int), (0 : Int)), ((1 : Int), (1 : Int)),
        ((2 : Int), (2 : Int))] : List Pt).getLast? :=
  downsample_endpoints
    [((0 : Int), (0 : Int)), ((1 : Int), (1 : Int)), ((2 : Int), (2 : Int))] 2
    (by decide) (by decide)

/-- Witness for C5 (amended) at a 1-point series with `maxPoints = 2`
(identity case) and a 3-point series with `maxPoints = 2` (sampling case). -/
theorem downsample_length_spec_witness :
    downsample [((5 : Int), (5 : Int))] 2 = some [((5 : Int), (5 : Int))] ∧
      ∃ r, downsample [((0 : Int), (0 : Int)), ((1 : Int), (1 : Int)),
          ((2 : Int), (2 : Int))] 2 = some r ∧ r.length = 2 ∧
        r = ((List.range (2 - 1)).map fun i =>
            ([((0 : Int), (0 : Int)), ((1 : Int), (1 : Int)),
              ((2 : Int), (2 : Int))] : List Pt).getD
              (i * (([((0 : Int), (0 : Int)), ((1 : Int), (1 : Int)),
                ((2 : Int), (2 : Int))] : List Pt).length - 1) / (2 - 1))
              ((0 : Int), (0 : Int))) ++
          [([((0 : Int), (0 : Int)), ((1 : Int), (1 : Int)),
            ((2 : Int), (2 : Int))] : List Pt).getD
            (([((0 : Int), (0 : Int)), ((1 : Int), (1 : Int)),
              ((2 : Int), (2 : Int))] : List Pt).length - 1) ((0 : Int), (0 : Int))] :=
  ⟨(downsample_length_spec [((5 : Int), (5 : Int))] 2).1 (by decide),
    (downsample_length_spec [((0 : Int), (0 : Int)), ((1 : Int), (1 : Int)),
      ((2 : Int), (2 : Int))] 2).2 (by decide) (by decide)⟩

/-- C7: idempotence — when the series is longer than `maxPoints`, running
`downsample` on its own output (propagating the raised-exception state
monadically) changes nothing. -/
theorem downsample_idem (data : List Pt) (mp : Nat) (h : mp < data.length) :
    (downsample data mp).bind (fun r => downsample r mp) = downsample data mp := by
  cases data with
  | nil => simp at h
  | cons d tl =>
    rcases mp with _ | (_ | k)
    · rw [downsample, if_neg (by simp), if_neg (by omega)]
      simp only [Nat.zero_sub, List.range_zero, List.map_nil, List.nil_append,
        Option.some_bind]
      rw [downsample, if_neg (by simp), if_neg (by omega)]
      simp [List.getLast_singleton]
    · rw [downsample, if_neg (by omega), if_pos rfl]
      rfl
    · rw [downsample_formula d tl (k + 2) (by omega) h]
      rw [Option.some_bind]
      apply downsample_of_le
      simp

/-- Witness for C7 at a concrete 3-point series with `maxPoints = 2`. -/
theorem downsample_idem_witness :
    (downsample [((0 : Int), (0 : Int)), ((1 : Int), (1 : Int)),
        ((2 : Int), (2 : Int))] 2).bind (fun r => downsample r 2) =
      downsample [((0 : Int), (0 : Int)), ((1 : Int), (1 : Int)),
        ((2 : Int), (2 : Int))] 2 :=
  downsample_idem
    [((0 : Int), (0 : Int)), ((1 : Int), (1 : Int)), ((2 : Int), (2 : Int))] 2
    (by decide)

/-- C10: `downsample` raises `ZeroDivisionError` (`none`) exactly on series
longer than 1 with `maxPoints = 1`; under `maxPoints ≥ 2` or
`len(series) ≤ maxPoints` the error branch is unreachable and a value is
always returned. -/
theorem downsample_total_iff (data : List Pt) (mp : Nat) :
    (1 < data.length → downsample data 1 = none) ∧
      (2 ≤ mp ∨ data.length ≤ mp → ∃ r, downsample data mp = some r) := by
  constructor
  · intro h
    cases data with
    | nil => simp at h
    | cons d tl => rw [downsample, if_neg (by omega), if_pos rfl]
  · intro h
    by_cases hle : data.length ≤ mp
    · exact ⟨data, downsample_of_le data mp hle⟩
    · cases data with
      | nil => simp at hle
      | cons d tl =>
        refine ⟨_, downsample_formula d tl mp ?_ (by omega)⟩
        rcases h with h | h
        · exact h
        · exact absurd h hle

/-- Witness for C10 at a concrete 2-point series. -/
theorem downsample_total_iff_witness :
    downsample [((0 : Int), (0 : Int)), ((1 : Int), (1 : Int))] 1 = none ∧
      ∃ r, downsample [((0 : Int), (0 : Int)), ((1 : Int), (1 : Int))] 2 = some r :=
  ⟨(downsample_total_iff [((0 : Int), (0 : Int)), ((1 : Int), (1 : Int))] 1).1
      (by decide),
    (downsample_total_iff [((0 : Int), (0 : Int)), ((1 : Int), (1 : Int))] 2).2
      (Or.inl (by decide))⟩

theorem map_getD_sublist {α : Type} (dflt : α) :
    ∀ (data : List α) (idxs : List Nat), idxs.Pairwise (· < ·) →
      (∀ i ∈ idxs, i < data.length) →
      ((idxs.map fun j => data.getD j dflt).Sublist data)
  | _, [] => fun _ _ => by simp
  | [], i :: rest => fun _ hbnd =>
      absurd (hbnd i (List.mem_cons_self i rest)) (by simp)
  | d :: tl, 0 :: rest => fun hpw hbnd => by
    rw [List.map_cons]
    have hpos : ∀ j ∈ rest, 0 < j := (List.pairwise_cons.mp hpw).1
    have hmap : (rest.map fun j => (d :: tl).getD j dflt) =
        (rest.map fun j => j - 1).map fun j => tl.getD j dflt := by
      rw [List.map_map]
      apply List.map_congr_left
      intro j hj
      obtain ⟨j', rfl⟩ : ∃ j', j = j' + 1 := ⟨j - 1, by have := hpos j hj; omega⟩
      simp [List.getD_cons_succ]
    rw [List.getD_cons_zero, hmap]
    apply List.Sublist.cons₂
    apply map_getD_sublist dflt tl (rest.map fun j => j - 1)
    · rw [List.pairwise_map]
      apply List.Pairwise.imp_of_mem ?_ (List.pairwise_cons.mp hpw).2
      intro a b ha hb hab
      have := hpos a ha
      omega
    · intro i hi
      rcases List.mem_map.mp hi with ⟨j, hj, rfl⟩
      have h1 := hbnd j (List.mem_cons_of_mem _ hj)
      have h2 := hpos j hj
      simp only [List.length_cons] at h1
      omega
  | d :: tl, (k + 1) :: rest => fun hpw hbnd => by
    have hpos : ∀ j ∈ (k + 1) :: rest, 0 < j := by
      intro j hj
      rcases List.mem_cons.mp hj with rfl | hj
      · omega
      · have := (List.pairwise_cons.mp hpw).1 j hj
        omega
    have hmap : (((k + 1) :: rest).map fun j => (d :: tl).getD j dflt) =
        (((k + 1) :: rest).map fun j => j - 1).map fun j => tl.getD j dflt := by
      rw [List.map_map]
      apply List.map_congr_left
      intro j hj
      obtain ⟨j', rfl⟩ : ∃ j', j = j' + 1 := ⟨j - 1, by have := hpos j hj; omega⟩
      simp [List.getD_cons_succ]
    rw [hmap]
    apply List.Sublist.cons
    apply map_getD_sublist dflt tl (((k + 1) :: rest).map fun j => j - 1)
    · rw [List.pairwise_map]
      apply List.Pairwise.imp_of_mem ?_ hpw
      intro a b ha hb hab
      have := hpos a ha
      omega
    · intro i hi
      rcases List.mem_map.mp hi with ⟨j, hj, rfl⟩
      have h1 := hbnd j hj
      have h2 := hpos j hj
      simp only [List.length_cons] at h1
      omega

/-- C9 (implicit): `downsample` preserves the Series invariant — on a strictly
ascending input with `maxPoints ≥ 2` it returns a sublist of the input taken
at strictly increasing indices, hence itself strictly ascending by timestamp
with unique timestamps. -/
theorem downsample_preserves_series (data : List Pt) (mp : Nat) (h2 : 2 ≤ mp)
    (hasc : data.Pairwise fun a b => a.1 < b.1) :
    ∃ r, downsample data mp = some r ∧ r.Sublist data ∧
      r.Pairwise fun a b => a.1 < b.1 := by
  by_cases hle : data.length ≤ mp
  · exact ⟨data, downsample_of_le data mp hle, List.Sublist.refl data, hasc⟩
  · push_neg at hle
    cases data with
    | nil => simp at hle
    | cons d tl =>
      have hL1 : 1 ≤ (d :: tl).length := by simp
      set L := (d :: tl).length with hLdef
      set idxs : List Nat :=
        ((List.range (mp - 1)).map fun i => i * (L - 1) / (mp - 1)) ++ [L - 1]
        with hidxs
      have hmain : downsample (d :: tl) mp =
          some (idxs.map fun j => (d :: tl).getD j d) := by
        rw [downsample_formula d tl mp h2 hle, hidxs, List.map_append,
          List.map_map, List.map_cons, List.map_nil]
        congr 2
        rw [List.getLast_eq_getElem,
          List.getD_eq_getElem _ _ (by omega : L - 1 < (d :: tl).length)]
      have hpw_idxs : idxs.Pairwise (· < ·) := by
        rw [hidxs]
        apply List.pairwise_append.mpr
        refine ⟨?_, List.pairwise_singleton _ _, ?_⟩
        · rw [List.pairwise_map]
          exact (List.sorted_lt_range (mp - 1)).imp fun hij =>
            stride_idx_mono (by omega) (by omega) hij
        · intro a ha b hb
          rcases List.mem_map.mp ha with ⟨i, hi, rfl⟩
          rcases List.mem_singleton.mp hb with rfl
          exact stride_idx_lt h2 hle (List.mem_range.mp hi)
      have hbnd : ∀ i ∈ idxs, i < L := by
        intro i hi
        rw [hidxs] at hi
        rcases List.mem_append.mp hi with hi | hi
        · rcases List.mem_map.mp hi with ⟨j, hj, rfl⟩
          have := stride_idx_lt h2 hle (List.mem_range.mp hj)
          omega
        · rcases List.mem_singleton.mp hi with rfl
          omega
      refine ⟨_, hmain, map_getD_sublist d (d :: tl) idxs hpw_idxs hbnd, ?_⟩
      rw [List.pairwise_map]
      apply List.Pairwise.imp_of_mem ?_ hpw_idxs
      intro i j hi hj hij
      have hiL : i < (d :: tl).length := hbnd i hi
      have hjL : j < (d :: tl).length := hbnd j hj
      rw [List.getD_eq_getElem _ _ hiL, List.getD_eq_getElem _ _ hjL]
      have := List.pairwise_iff_get.mp hasc ⟨i, hiL⟩ ⟨j, hjL⟩ hij
      simpa using this

/-- Witness for C9 at a concrete strictly ascending 3-point series. -/
theorem downsample_preserves_series_witness :
    ∃ r, downsample [((0 : Int), (7 : Int)), ((1 : Int), (5 : Int)),
        ((2 : Int), (3 : Int))] 2 = some r ∧
      r.Sublist [((0 : Int), (7 : Int)), ((1 : Int), (5 : Int)),
        ((2 : Int), (3 : Int))] ∧
      r.Pairwise fun a b => a.1 < b.1 :=
  downsample_preserves_series
    [((0 : Int), (7 : Int)), ((1 : Int), (5 : Int)), ((2 : Int), (3 : Int))] 2
    (by decide) (by decide)
